import Mathlib

/-!
Verification development for the mongoose-api-helpers library
(src/index.ts: class ApiFeatures and function getPagination,
src/types.ts: QueryString and PaginationInfo).

The embedding models JavaScript values flowing through the library:
query-string mappings are association lists of keys to JS values,
strings are lists of characters, and the JSON.stringify /
String.replace / JSON.parse pipeline of ApiFeatures.filter is embedded
as executable functions over those lists.
-/

/-- Word characters of the JavaScript regular-expression class `\w`,
namely ASCII letters, ASCII digits and underscore.  Used by the
word-boundary operator rewriting of `ApiFeatures.filter`
(the regex `\b(gte|gt|lte|lt|in|nin|eq|ne|regex|options)\b`). -/
def isWordChar (c : Char) : Bool :=
  c.isAlpha || c.isDigit || c = '_'

/-- Characters that JSON.stringify emits unescaped inside a string
literal: everything except the double quote, the backslash and
control characters below U+0020. -/
def plainChar (c : Char) : Bool :=
  if c = '\x22' then false
  else if c = '\x5c' then false
  else if c.toNat < 32 then false
  else true

/-- The closed operator vocabulary of `ApiFeatures.filter`
(source line 33): gte, gt, lte, lt, in, nin, eq, ne, regex, options. -/
def opVocab : List (List Char) :=
  [['g','t','e'], ['g','t'], ['l','t','e'], ['l','t'],
   ['i','n'], ['n','i','n'], ['e','q'], ['n','e'],
   ['r','e','g','e','x'], ['o','p','t','i','o','n','s']]

/-- Emit one maximal word-character run of the serialized text: a run
that is exactly an operator word of `opVocab` gains a `$` in front
(the replacement callback of source line 34), every other run is kept
verbatim.  Because all operator words consist solely of word
characters, the word-boundary matches of the source regex are exactly
the maximal word runs equal to an operator word. -/
def flushRun (run : List Char) : List Char :=
  if run = [] then []
  else if run ∈ opVocab then '$' :: run
  else run

/-- Single left-to-right pass over the text, accumulating the current
maximal word-character run in `cur`. -/
def replaceRunsAux (cur : List Char) : List Char → List Char
  | [] => flushRun cur
  | c :: cs =>
    if isWordChar c then replaceRunsAux (cur ++ [c]) cs
    else flushRun cur ++ c :: replaceRunsAux [] cs

/-- Embedding of source lines 32..35: the global replacement of
word-boundary occurrences of operator words by their `$`-prefixed
forms in the serialized query object. -/
def replaceRuns (l : List Char) : List Char :=
  replaceRunsAux [] l

mutual
/-- JavaScript values handled by the library: strings, objects,
arrays, Date objects produced by the date special case of
`ApiFeatures.filter` (modelled by their constructor argument), and
RegExp objects produced by `ApiFeatures.search` (modelled by their
pattern and flags).  Query-string mappings contain only `str`, `obj`
and `arr` nodes. -/
inductive Json where
  | str : List Char → Json
  | obj : JFields → Json
  | arr : JElems → Json
  | dat : Json → Json
  | regexVal : List Char → List Char → Json
deriving DecidableEq

/-- Ordered fields of a JavaScript object (insertion order, as
JSON.stringify and JSON.parse preserve it). -/
inductive JFields where
  | nil : JFields
  | cons : List Char → Json → JFields → JFields
deriving DecidableEq

/-- Ordered elements of a JavaScript array. -/
inductive JElems where
  | nil : JElems
  | cons : Json → JElems → JElems
deriving DecidableEq
end

/-- JavaScript property read on an object field list.  JSON.parse
keeps the last of duplicate keys, so the last matching entry wins;
on the duplicate-free mappings of the claims this is ordinary
association-list lookup. -/
def getF : JFields → List Char → Option Json
  | JFields.nil, _ => none
  | JFields.cons k v r, key =>
    match getF r key with
    | some w => some w
    | none => if k = key then some v else none

/-- JavaScript property write `o[key] = nv` for a key already present:
the value is replaced in place, the key set and order are unchanged. -/
def setF : JFields → List Char → Json → JFields
  | JFields.nil, _, _ => JFields.nil
  | JFields.cons k v r, key, nv =>
    JFields.cons k (if k = key then nv else v) (setF r key nv)

/-- Keys of an object field list, in order. -/
def keysF : JFields → List (List Char)
  | JFields.nil => []
  | JFields.cons k _ r => k :: keysF r

/-- JavaScript truthiness of the values the library tests: the empty
string is falsy, every other string is truthy, and objects, arrays,
Dates and RegExps are always truthy. -/
def truthy : Json → Bool
  | Json.str s => s ≠ []
  | Json.obj _ => true
  | Json.arr _ => true
  | Json.dat _ => true
  | Json.regexVal _ _ => true

/-- Truthiness of a possibly-missing property: an absent property is
`undefined`, which is falsy. -/
def truthyOpt : Option Json → Bool
  | none => false
  | some v => truthy v

/-- Property read on an arbitrary JavaScript value: strings, Dates and
RegExps have none of the accessed properties, objects delegate to
`getF`. -/
def jsGet : Json → List Char → Option Json
  | Json.obj fs, k => getF fs k
  | _, _ => none

/-- String content of a possibly-missing property.  The library only
ever calls string methods on properties its `QueryString` interface
types as `string`; the JavaScript coercion of other values is not
modelled and yields the empty string here. -/
def strValOf : Option Json → List Char
  | some (Json.str s) => s
  | _ => []

/-- String-typed property read: `some` exactly when the property is
present and holds a string (as `QueryString` declares for the six
reserved parameters). -/
def getStr (qs : JFields) (k : List Char) : Option (List Char) :=
  match getF qs k with
  | some (Json.str s) => some s
  | _ => none

def pageKey : List Char := ['p','a','g','e']
def sortKey : List Char := ['s','o','r','t']
def limitKey : List Char := ['l','i','m','i','t']
def fieldsKey : List Char := ['f','i','e','l','d','s']
def searchKey : List Char := ['s','e','a','r','c','h']
def populateKey : List Char := ['p','o','p','u','l','a','t','e']
def dateKey : List Char := ['d','a','t','e']
def gteKey : List Char := ['$','g','t','e']
def lteKey : List Char := ['$','l','t','e']
def orKey : List Char := ['$','o','r']
def iFlag : List Char := ['i']

/-- The six reserved control keys excluded from filtering
(source line 27). -/
def reservedKeys : List (List Char) :=
  [pageKey, sortKey, limitKey, fieldsKey, searchKey, populateKey]

/-- Embedding of source lines 26..28: shallow copy of the query string
with the six reserved keys deleted. -/
def removeReserved : JFields → JFields
  | JFields.nil => JFields.nil
  | JFields.cons k v r =>
    if k ∈ reservedKeys then removeReserved r
    else JFields.cons k v (removeReserved r)

/-- Hexadecimal digit character for the `\u00XX` escapes that
JSON.stringify uses for control characters. -/
def hexDigitChar (n : Nat) : Char :=
  if n < 10 then Char.ofNat (48 + n) else Char.ofNat (87 + n)

/-- JSON.stringify escaping of a single character inside a string
literal. -/
def escapeChar (c : Char) : List Char :=
  if c = '\x22' then ['\x5c', '\x22']
  else if c = '\x5c' then ['\x5c', '\x5c']
  else if c = '\x08' then ['\x5c', 'b']
  else if c = '\x09' then ['\x5c', 't']
  else if c = '\x0a' then ['\x5c', 'n']
  else if c = '\x0c' then ['\x5c', 'f']
  else if c = '\x0d' then ['\x5c', 'r']
  else if c.toNat < 32 then
    ['\x5c', 'u', '0', '0', hexDigitChar (c.toNat / 16), hexDigitChar (c.toNat % 16)]
  else [c]

/-- Concatenation of a list of character lists. -/
def concatAll : List (List Char) → List Char
  | [] => []
  | x :: r => x ++ concatAll r

/-- JSON.stringify escaping of a whole string body. -/
def escapeStr (s : List Char) : List Char :=
  concatAll (s.map escapeChar)

/-- A JSON string literal: opening quote, escaped body, closing
quote. -/
def stringifyStr (s : List Char) : List Char :=
  '\x22' :: escapeStr s ++ ['\x22']

mutual
/-- Embedding of JSON.stringify (source line 31) on the values that
appear in query-string mappings: strings, objects and arrays.  A
RegExp has no enumerable own properties, so JSON.stringify renders it
as an empty object.  Date serialization (an ISO timestamp produced by
Date.prototype.toJSON) is not modelled: Dates are created only after
parsing, inside the filter result, and are never serialized by the
library. -/
def stringifyJson : Json → List Char
  | Json.str s => stringifyStr s
  | Json.obj JFields.nil => ['\x7b', '\x7d']
  | Json.obj fs => '\x7b' :: stringifyFields fs ++ ['\x7d']
  | Json.arr JElems.nil => ['[', ']']
  | Json.arr es => '[' :: stringifyElems es ++ [']']
  | Json.dat _ => []
  | Json.regexVal _ _ => ['\x7b', '\x7d']

/-- Comma-separated `"key":value` field list of a non-empty object. -/
def stringifyFields : JFields → List Char
  | JFields.nil => []
  | JFields.cons k v JFields.nil => stringifyStr k ++ ':' :: stringifyJson v
  | JFields.cons k v r => stringifyStr k ++ ':' :: stringifyJson v ++ ',' :: stringifyFields r

/-- Comma-separated element list of a non-empty array. -/
def stringifyElems : JElems → List Char
  | JElems.nil => []
  | JElems.cons v JElems.nil => stringifyJson v
  | JElems.cons v r => stringifyJson v ++ ',' :: stringifyElems r
end

/-- Value of an ASCII hexadecimal digit, `none` otherwise. -/
def hexVal (c : Char) : Option Nat :=
  if 48 ≤ c.toNat ∧ c.toNat ≤ 57 then some (c.toNat - 48)
  else if 97 ≤ c.toNat ∧ c.toNat ≤ 102 then some (c.toNat - 87)
  else if 65 ≤ c.toNat ∧ c.toNat ≤ 70 then some (c.toNat - 55)
  else none

/-- The single-character escapes accepted by JSON.parse. -/
def simpleUnescape (e : Char) : Option Char :=
  if e = '\x22' then some '\x22'
  else if e = '\x5c' then some '\x5c'
  else if e = '/' then some '/'
  else if e = 'b' then some '\x08'
  else if e = 'f' then some '\x0c'
  else if e = 'n' then some '\x0a'
  else if e = 'r' then some '\x0d'
  else if e = 't' then some '\x09'
  else none

/-- JSON.parse string-literal body scanner, entered just after the
opening quote.  Returns the decoded body and the text after the
closing quote; an invalid escape sequence (for example the `\$nin`
that operator rewriting can create from an escaped control character
followed by an operator word) is a parse error. -/
def parseStr : List Char → Option (List Char × List Char)
  | [] => none
  | c :: rest =>
    if c = '\x22' then some ([], rest)
    else if c = '\x5c' then
      match rest with
      | [] => none
      | e :: r2 =>
        if e = 'u' then
          match r2 with
          | h1 :: h2 :: h3 :: h4 :: r3 =>
            match hexVal h1, hexVal h2, hexVal h3, hexVal h4 with
            | some a, some b, some c4, some d =>
              (parseStr r3).map (fun p => (Char.ofNat (((a * 16 + b) * 16 + c4) * 16 + d) :: p.1, p.2))
            | _, _, _, _ => none
          | _ => none
        else
          match simpleUnescape e with
          | some ch => (parseStr r2).map (fun p => (ch :: p.1, p.2))
          | none => none
    else (parseStr rest).map (fun p => (c :: p.1, p.2))

mutual
/-- Embedding of JSON.parse (source line 37) on the fragment of JSON
that `stringifyJson` followed by operator rewriting can produce:
strings, objects and arrays.  The fuel argument bounds the nesting
depth; `apiFilters` supplies the input length, which the roundtrip
lemmas show is always sufficient. -/
def parseJson : Nat → List Char → Option (Json × List Char)
  | 0, _ => none
  | _ + 1, [] => none
  | f + 1, c :: rest =>
    if c = '\x22' then (parseStr rest).map (fun p => (Json.str p.1, p.2))
    else if c = '\x7b' then
      if rest.head? = some '\x7d' then some (Json.obj JFields.nil, rest.tail)
      else (parseFields f rest).map (fun p => (Json.obj p.1, p.2))
    else if c = '[' then
      if rest.head? = some ']' then some (Json.arr JElems.nil, rest.tail)
      else (parseElems f rest).map (fun p => (Json.arr p.1, p.2))
    else none

/-- Field list of a non-empty object body, consuming the closing
brace. -/
def parseFields : Nat → List Char → Option (JFields × List Char)
  | 0, _ => none
  | _ + 1, [] => none
  | f + 1, c :: rest =>
    if c = '\x22' then
      match parseStr rest with
      | none => none
      | some (k, r1) =>
        match r1 with
        | [] => none
        | c2 :: r2 =>
          if c2 = ':' then
            match parseJson f r2 with
            | none => none
            | some (v, r3) =>
              match r3 with
              | [] => none
              | c3 :: r4 =>
                if c3 = ',' then
                  match parseFields f r4 with
                  | none => none
                  | some (fs, r5) => some (JFields.cons k v fs, r5)
                else if c3 = '\x7d' then some (JFields.cons k v JFields.nil, r4)
                else none
          else none
    else none

/-- Element list of a non-empty array body, consuming the closing
bracket. -/
def parseElems : Nat → List Char → Option (JElems × List Char)
  | 0, _ => none
  | f + 1, l =>
    match parseJson f l with
    | none => none
    | some (v, r1) =>
      match r1 with
      | [] => none
      | c2 :: r2 =>
        if c2 = ',' then
          match parseElems f r2 with
          | none => none
          | some (es, r3) => some (JElems.cons v es, r3)
        else if c2 = ']' then some (JElems.cons v JElems.nil, r2)
        else none
end

mutual
/-- Structural application of a string transformation to every object
key and every string leaf.  The roundtrip theorems show that the
stringify / replace / parse pipeline of `ApiFeatures.filter` acts on
escape-free mappings exactly as `mapStrsJson replaceRuns`. -/
def mapStrsJson (g : List Char → List Char) : Json → Json
  | Json.str s => Json.str (g s)
  | Json.obj fs => Json.obj (mapStrsFields g fs)
  | Json.arr es => Json.arr (mapStrsElems g es)
  | Json.dat d => Json.dat d
  | Json.regexVal p f => Json.regexVal p f

/-- Field-list part of `mapStrsJson`. -/
def mapStrsFields (g : List Char → List Char) : JFields → JFields
  | JFields.nil => JFields.nil
  | JFields.cons k v r => JFields.cons (g k) (mapStrsJson g v) (mapStrsFields g r)

/-- Element-list part of `mapStrsJson`. -/
def mapStrsElems (g : List Char → List Char) : JElems → JElems
  | JElems.nil => JElems.nil
  | JElems.cons v r => JElems.cons (mapStrsJson g v) (mapStrsElems g r)
end

mutual
/-- A value is plain when it is built from strings, objects and arrays
only (the shapes a parsed HTTP query string produces) and none of its
strings or keys needs JSON escaping. -/
def plainJson : Json → Bool
  | Json.str s => s.all plainChar
  | Json.obj fs => plainFields fs
  | Json.arr es => plainElems es
  | Json.dat _ => false
  | Json.regexVal _ _ => false

/-- Field-list part of `plainJson`. -/
def plainFields : JFields → Bool
  | JFields.nil => true
  | JFields.cons k v r => k.all plainChar && plainJson v && plainFields r

/-- Element-list part of `plainJson`. -/
def plainElems : JElems → Bool
  | JElems.nil => true
  | JElems.cons v r => plainJson v && plainElems r
end

mutual
/-- Nesting size of a value, used as the fuel bound for the parser. -/
def sizeJ : Json → Nat
  | Json.str _ => 1
  | Json.obj fs => 1 + sizeF fs
  | Json.arr es => 1 + sizeE es
  | Json.dat _ => 1
  | Json.regexVal _ _ => 1

/-- Field-list part of `sizeJ`. -/
def sizeF : JFields → Nat
  | JFields.nil => 0
  | JFields.cons _ v r => 1 + max (sizeJ v) (sizeF r)

/-- Element-list part of `sizeJ`. -/
def sizeE : JElems → Nat
  | JElems.nil => 0
  | JElems.cons v r => 1 + max (sizeJ v) (sizeE r)
end

/-- Embedding of source lines 40..45, the date special case: when the
parsed filter object has a truthy `date` property, that property is
replaced by an object holding `new Date(...)` of its `$gte` and `$lte`
sub-properties (each only when truthy); all other sub-properties of
`date` are dropped.  `Json.dat` models the constructed Date by its
argument. -/
def dateFilterOf (v : Json) : JFields :=
  let rest :=
    match jsGet v lteKey with
    | some l => if truthy l then JFields.cons lteKey (Json.dat l) JFields.nil else JFields.nil
    | none => JFields.nil
  match jsGet v gteKey with
  | some g => if truthy g then JFields.cons gteKey (Json.dat g) rest else rest
  | none => rest

/-- Date special case applied to the parsed filter object. -/
def dateTransform (j : Json) : Json :=
  match j with
  | Json.obj fs =>
    match getF fs dateKey with
    | some v =>
      if truthy v then Json.obj (setF fs dateKey (Json.obj (dateFilterOf v)))
      else Json.obj fs
    | none => Json.obj fs
  | other => other

/-- Embedding of the filter-construction pipeline of
`ApiFeatures.filter` (source lines 26..45): delete the reserved keys,
JSON.stringify, rewrite operator words, JSON.parse (a failure of which
is a thrown exception, hence `none`), then apply the date special
case.  The parser fuel is the input length, which the roundtrip
theorems show suffices. -/
def apiFilters (qs : JFields) : Option Json :=
  let s := replaceRuns (stringifyJson (Json.obj (removeReserved qs)))
  match parseJson s.length s with
  | some (j, []) => some (dateTransform j)
  | _ => none

/-- The mongoose query handle as the library drives it: accumulated
conjunctive `find` predicates, last-write-wins skip and limit options,
and accumulated populate directives. -/
structure QueryHandle where
  finds : List Json
  skipVal : Option Int
  limitVal : Option Int
  populates : List (List Char)
deriving DecidableEq

/-- A fresh query handle with nothing applied. -/
def emptyHandle : QueryHandle := QueryHandle.mk [] none none []

/-- The ApiFeatures instance: the mutable query handle, the query
string, and the `total` field that the constructor initialises to
null. -/
structure ApiFeatures where
  query : QueryHandle
  queryString : JFields
  total : Option Nat
deriving DecidableEq

/-- Embedding of the constructor (source lines 16..20): stores the
handle and the query string and sets `total` to null. -/
def ApiFeatures.init (q : QueryHandle) (qs : JFields) : ApiFeatures :=
  ApiFeatures.mk q qs none

/-- Embedding of `ApiFeatures.filter` (source lines 25..56).  The
construction of the filter object is `apiFilters`; the handle gains
the filter as one more conjunctive `find` predicate; and when
`this.queryString.page` is truthy the model's `countDocuments` —
represented by the oracle `countFn`, the count of documents matching
a predicate — is invoked on the same filter object and stored in
`total`.  A JSON parse failure rejects the promise, hence `none`. -/
def ApiFeatures.filter (af : ApiFeatures) (countFn : Json → Nat) : Option ApiFeatures :=
  match apiFilters af.queryString with
  | none => none
  | some filters =>
    some (ApiFeatures.mk
      (QueryHandle.mk (af.query.finds ++ [filters]) af.query.skipVal af.query.limitVal af.query.populates)
      af.queryString
      (if truthyOpt (getF af.queryString pageKey) then some (countFn filters) else af.total))

/-- The default search field list of `ApiFeatures.search`
(source line 61): name, email, title. -/
def defaultSearchFields : List (List Char) :=
  [['n','a','m','e'], ['e','m','a','i','l'], ['t','i','t','l','e']]

/-- One `{field: searchRegex}` disjunct per search field, in order. -/
def searchElems (pat : List Char) : List (List Char) → JElems
  | [] => JElems.nil
  | f :: r => JElems.cons (Json.obj (JFields.cons f (Json.regexVal pat iFlag) JFields.nil)) (searchElems pat r)

/-- The `{$or: [...]}` predicate that `ApiFeatures.search` builds;
`Json.regexVal pat iFlag` models `new RegExp(pat, "i")`, the
case-insensitive matcher on the search text. -/
def searchPredicate (pat : List Char) (flds : List (List Char)) : Json :=
  Json.obj (JFields.cons orKey (Json.arr (searchElems pat flds)) JFields.nil)

/-- Embedding of `ApiFeatures.search` (source lines 61..70): when
`this.queryString.search` is truthy, append the `$or` predicate over
the given fields as one more conjunctive `find` constraint; otherwise
return the instance unchanged. -/
def ApiFeatures.search (af : ApiFeatures) (searchFields : List (List Char)) : ApiFeatures :=
  let sv := getF af.queryString searchKey
  if truthyOpt sv then
    ApiFeatures.mk
      (QueryHandle.mk (af.query.finds ++ [searchPredicate (strValOf sv) searchFields])
        af.query.skipVal af.query.limitVal af.query.populates)
      af.queryString af.total
  else af

/-- White-space characters skipped by parseInt. -/
def isJsSpace (c : Char) : Bool :=
  c = ' ' || c = '\x09' || c = '\x0a' || c = '\x0b' || c = '\x0c' || c = '\x0d'

/-- Decimal value of a digit string. -/
def digitsToNat (l : List Char) : Nat :=
  l.foldl (fun a c => a * 10 + (c.toNat - 48)) 0

/-- Maximal leading decimal-digit run, `none` when there is none. -/
def parseDigitsNat (l : List Char) : Option Nat :=
  let ds := l.takeWhile Char.isDigit
  if ds = [] then none else some (digitsToNat ds)

/-- Embedding of `parseInt(s, 10)`: skip leading white space, accept
an optional sign, read the maximal decimal-digit run; `none` models
NaN. -/
def jsParseInt (s : List Char) : Option Int :=
  let t := s.dropWhile isJsSpace
  if t.head? = some '-' then (parseDigitsNat t.tail).map (fun n => -(n : Int))
  else if t.head? = some '+' then (parseDigitsNat t.tail).map (fun n => (n : Int))
  else (parseDigitsNat t).map (fun n => (n : Int))

/-- JavaScript `x || d` on a parseInt result: NaN (`none`) and 0 are
falsy and fall back to the default. -/
def jsFalsyOr (o : Option Int) (d : Int) : Int :=
  match o with
  | none => d
  | some n => if n = 0 then d else n

/-- ParseInt applied to a possibly-missing string parameter:
`parseInt(undefined, 10)` is NaN. -/
def jsParseIntOpt (o : Option (List Char)) : Option Int :=
  match o with
  | some s => jsParseInt s
  | none => none

/-- Embedding of `ApiFeatures.paginate` (source lines 101..108):
`page = parseInt(qs.page, 10) || 1`, `limit = parseInt(qs.limit, 10)
|| 100`, `skip = (page - 1) * limit`, then last-write-wins skip and
limit on the handle. -/
def ApiFeatures.paginate (af : ApiFeatures) : ApiFeatures :=
  let page := jsFalsyOr (jsParseIntOpt (getStr af.queryString pageKey)) 1
  let lim := jsFalsyOr (jsParseIntOpt (getStr af.queryString limitKey)) 100
  let skip := (page - 1) * lim
  ApiFeatures.mk (QueryHandle.mk af.query.finds (some skip) (some lim) af.query.populates)
    af.queryString af.total

/-- JavaScript `s.split(",")`: the empty string yields one empty
field, a trailing comma yields a trailing empty field. -/
def splitComma : List Char → List (List Char)
  | [] => [[]]
  | c :: rest =>
    if c = ',' then [] :: splitComma rest
    else
      match splitComma rest with
      | g :: gs => (c :: g) :: gs
      | [] => [[c]]

/-- Embedding of `ApiFeatures.populate` (source lines 113..123): when
`this.queryString.populate` is truthy its comma-split entirely
replaces the caller-supplied default list, otherwise the default list
is used; one populate directive is applied per field, sequentially. -/
def ApiFeatures.populate (af : ApiFeatures) (populateOptions : List (List Char)) : ApiFeatures :=
  let pv := getF af.queryString populateKey
  let populateFields := if truthyOpt pv then splitComma (strValOf pv) else populateOptions
  ApiFeatures.mk
    (QueryHandle.mk af.query.finds af.query.skipVal af.query.limitVal
      (af.query.populates ++ populateFields))
    af.queryString af.total

/-- A JavaScript number as `Math.ceil(total / limit)` can produce it
on the integer inputs of the Formatter: a finite natural, Infinity
(positive total divided by zero), or NaN (zero divided by zero). -/
inductive JsNum where
  | fin : Nat → JsNum
  | inf : JsNum
  | nan : JsNum
deriving DecidableEq

/-- Whether a `JsNum` is finite. -/
def JsNum.isFinite : JsNum → Bool
  | JsNum.fin _ => true
  | JsNum.inf => false
  | JsNum.nan => false

/-- JavaScript `<` between a finite number and a `JsNum`: every
finite number is less than Infinity, and every comparison with NaN is
false. -/
def jsLtNum (p : Nat) : JsNum → Bool
  | JsNum.fin n => p < n
  | JsNum.inf => true
  | JsNum.nan => false

/-- Embedding of `Math.ceil(total / limit)` on natural-number inputs:
exact rational division followed by ceiling; division by zero gives
Infinity for a positive numerator and NaN for zero. -/
def jsCeilDiv (total limit : Nat) : JsNum :=
  if limit = 0 then
    if total = 0 then JsNum.nan else JsNum.inf
  else
    JsNum.fin (if total % limit = 0 then total / limit else total / limit + 1)

/-- The PaginationInfo record of src/types.ts. -/
structure PaginationInfo where
  total : Nat
  pages : JsNum
  currentPage : Nat
  limit : Nat
  hasNext : Bool
  hasPrevious : Bool
  nextPage : Option Nat
  previousPage : Option Nat
deriving DecidableEq

/-- Embedding of `getPagination` (source lines 129..144) on
natural-number inputs, the domain of the Formatter contract
(non-negative total, non-negative limit and page). -/
def getPagination (total limit page : Nat) : PaginationInfo :=
  let pages := jsCeilDiv total limit
  let hasNext := jsLtNum page pages
  let hasPrevious : Bool := 1 < page
  PaginationInfo.mk total pages page limit hasNext hasPrevious
    (if hasNext then some (page + 1) else none)
    (if hasPrevious then some (page - 1) else none)

/-- Modelled from the spec: the ceiling of `total / limit` written as
the usual closed form, used to compare the source's page count with
the specification's `pages = ceil(total/limit)`. -/
def specCeil (t l : Nat) : Nat :=
  (t + l - 1) / l

/-- Modelled from the spec (amended): the parsed integer value of a
parameter, falling back to the default when the parameter is missing,
when parsing fails, or when the parsed value is zero. -/
def specParsedOr (o : Option (List Char)) (d : Int) : Int :=
  match o with
  | none => d
  | some s =>
    match jsParseInt s with
    | none => d
    | some n => if n = 0 then d else n

/-- Keys of the filter predicate an object-valued filter carries;
non-objects carry none. -/
def jsonKeys : Json → List (List Char)
  | Json.obj fs => keysF fs
  | _ => []

/-- Fixture: a mapping with one plain non-reserved pair. -/
def qsColor : JFields := JFields.cons ['c','o','l','o','r'] (Json.str ['r','e','d']) JFields.nil

/-- Fixture: a mapping whose filter value is itself an operator word. -/
def qsStatusIn : JFields := JFields.cons ['s','t','a','t','u','s'] (Json.str ['i','n']) JFields.nil

/-- Fixture: a mapping whose bare field name is an operator word. -/
def qsKeyIn : JFields := JFields.cons ['i','n'] (Json.str ['5']) JFields.nil

/-- Fixture: page=2 plus a bracketed operator filter price[gte]=5. -/
def qsPrice : JFields :=
  JFields.cons pageKey (Json.str ['2'])
    (JFields.cons ['p','r','i','c','e']
      (Json.obj (JFields.cons ['g','t','e'] (Json.str ['5']) JFields.nil)) JFields.nil)

/-- Fixture: a page parameter present with the empty-string value. -/
def qsPageEmpty : JFields := JFields.cons pageKey (Json.str []) JFields.nil

/-- Fixture: page=0 and limit=10. -/
def qsPage0Limit10 : JFields :=
  JFields.cons pageKey (Json.str ['0']) (JFields.cons limitKey (Json.str ['1','0']) JFields.nil)

/-- Fixture: page=0 and limit=0. -/
def qsPage0Limit0 : JFields :=
  JFields.cons pageKey (Json.str ['0']) (JFields.cons limitKey (Json.str ['0']) JFields.nil)

/-- Fixture: page=3 and limit=10. -/
def qsPage3Limit10 : JFields :=
  JFields.cons pageKey (Json.str ['3']) (JFields.cons limitKey (Json.str ['1','0']) JFields.nil)

/-- Fixture: a populate parameter present with the empty-string value. -/
def qsPopEmpty : JFields := JFields.cons populateKey (Json.str []) JFields.nil

/-- Fixture: populate=category,reviews. -/
def qsPopCatRev : JFields :=
  JFields.cons populateKey
    (Json.str ['c','a','t','e','g','o','r','y',',','r','e','v','i','e','w','s']) JFields.nil

/-- Fixture: search=bob. -/
def qsSearchBob : JFields := JFields.cons searchKey (Json.str ['b','o','b']) JFields.nil

/-- Fixture: the constant-zero count oracle. -/
def cf0 : Json → Nat := fun _ => 0

/-- Fixture: the constant-five count oracle. -/
def cf5 : Json → Nat := fun _ => 5

/-- A text whose first character, if any, is not a word character;
appending such a text to another never merges word runs across the
seam. -/
def headNonWord : List Char → Bool
  | [] => true
  | c :: _ => !isWordChar c

theorem flushRun_noDollar (r : List Char) (h : '$' ∉ flushRun r) : flushRun r = r := by
  by_cases h1 : r = []
  · simp [flushRun, h1]
  · by_cases h2 : r ∈ opVocab
    · exact absurd (by simp [flushRun, h1, h2]) h
    · simp [flushRun, h1, h2]

theorem flushRun_mem (r : List Char) (x : Char) (h : x ∈ flushRun r) : x ∈ r ∨ x = '$' := by
  by_cases h1 : r = []
  · simp [flushRun, h1] at h
  · by_cases h2 : r ∈ opVocab
    · simp [flushRun, h1, h2] at h
      rcases h with h | h
      · right; exact h
      · left; exact h
    · simp [flushRun, h1, h2] at h
      left; exact h

theorem replaceRunsAux_append (B : List Char) (hB : headNonWord B = true) :
    ∀ (xs cur : List Char),
      replaceRunsAux cur (xs ++ B) = replaceRunsAux cur xs ++ replaceRunsAux [] B := by
  intro xs
  induction xs with
  | nil =>
    intro cur
    cases B with
    | nil => simp [replaceRunsAux, flushRun]
    | cons c cs =>
      simp only [headNonWord, Bool.not_eq_true'] at hB
      simp [replaceRunsAux, hB, flushRun]
  | cons d ds ih =>
    intro cur
    by_cases hd : isWordChar d
    · simp only [List.cons_append, replaceRunsAux, hd, if_true]
      exact ih _
    · simp only [List.cons_append, replaceRunsAux, hd, if_false, Bool.false_eq_true,
        List.append_eq]
      rw [ih]
      simp

theorem replaceRuns_append (A B : List Char) (hB : headNonWord B = true) :
    replaceRuns (A ++ B) = replaceRuns A ++ replaceRuns B :=
  replaceRunsAux_append B hB A []

theorem replaceRuns_nonword_cons (c : Char) (l : List Char) (hc : isWordChar c = false) :
    replaceRuns (c :: l) = c :: replaceRuns l := by
  simp [replaceRuns, replaceRunsAux, hc, flushRun]

theorem replaceRuns_nil : replaceRuns [] = [] := by
  simp [replaceRuns, replaceRunsAux, flushRun]

theorem replaceRunsAux_allWord :
    ∀ (w : List Char), w.all isWordChar = true →
      ∀ cur, replaceRunsAux cur w = flushRun (cur ++ w) := by
  intro w
  induction w with
  | nil => intro _ cur; simp [replaceRunsAux]
  | cons c cs ih =>
    intro hw cur
    simp only [List.all_cons, Bool.and_eq_true] at hw
    simp only [replaceRunsAux, hw.1, if_true]
    rw [ih hw.2]
    simp

theorem replaceRuns_allWord (w : List Char) (hw : w.all isWordChar = true) :
    replaceRuns w = flushRun w := by
  simpa using replaceRunsAux_allWord w hw []

theorem replaceRunsAux_noDollar :
    ∀ (l cur : List Char), '$' ∉ replaceRunsAux cur l → replaceRunsAux cur l = cur ++ l := by
  intro l
  induction l with
  | nil =>
    intro cur h
    simp only [replaceRunsAux] at h ⊢
    simp [flushRun_noDollar cur h]
  | cons c cs ih =>
    intro cur h
    by_cases hc : isWordChar c
    · simp only [replaceRunsAux, hc, if_true] at h ⊢
      rw [ih _ h]
      simp
    · simp only [replaceRunsAux, hc, if_false, Bool.false_eq_true] at h ⊢
      simp only [List.mem_append, List.mem_cons, not_or] at h
      obtain ⟨h1, h2, h3⟩ := h
      rw [flushRun_noDollar cur h1, ih [] h3]
      simp

theorem replaceRuns_noDollar (l : List Char) (h : '$' ∉ replaceRuns l) : replaceRuns l = l := by
  simpa using replaceRunsAux_noDollar l [] h

theorem replaceRunsAux_mem :
    ∀ (l cur : List Char) (x : Char), x ∈ replaceRunsAux cur l → x ∈ cur ∨ x ∈ l ∨ x = '$' := by
  intro l
  induction l with
  | nil =>
    intro cur x h
    simp only [replaceRunsAux] at h
    rcases flushRun_mem cur x h with h | h
    · exact Or.inl h
    · exact Or.inr (Or.inr h)
  | cons c cs ih =>
    intro cur x h
    by_cases hc : isWordChar c
    · simp only [replaceRunsAux, hc, if_true] at h
      rcases ih _ x h with h | h | h
      · simp only [List.mem_append, List.mem_singleton] at h
        rcases h with h | h
        · exact Or.inl h
        · exact Or.inr (Or.inl (by simp [h]))
      · exact Or.inr (Or.inl (List.mem_cons_of_mem c h))
      · exact Or.inr (Or.inr h)
    · simp only [replaceRunsAux, hc, if_false, Bool.false_eq_true, List.mem_append,
        List.mem_cons] at h
      rcases h with h | h | h
      · rcases flushRun_mem cur x h with h | h
        · exact Or.inl h
        · exact Or.inr (Or.inr h)
      · exact Or.inr (Or.inl (by simp [h]))
      · rcases ih [] x h with h | h | h
        · simp at h
        · exact Or.inr (Or.inl (List.mem_cons_of_mem c h))
        · exact Or.inr (Or.inr h)

theorem replaceRuns_plain (l : List Char) (h : l.all plainChar = true) :
    (replaceRuns l).all plainChar = true := by
  simp only [List.all_eq_true] at h ⊢
  intro x hx
  rcases replaceRunsAux_mem l [] x hx with h' | h' | h'
  · simp at h'
  · exact h x h'
  · subst h'; decide

theorem plainChar_spec (c : Char) (h : plainChar c = true) :
    c ≠ '\x22' ∧ c ≠ '\x5c' ∧ 32 ≤ c.toNat := by
  unfold plainChar at h
  split_ifs at h with h1 h2 h3
  exact ⟨h1, h2, by omega⟩

theorem escapeChar_plain (c : Char) (h : plainChar c = true) : escapeChar c = [c] := by
  obtain ⟨h1, h2, h3⟩ := plainChar_spec c h
  have e3 : c ≠ '\x08' := by intro hc; subst hc; simp at h3
  have e4 : c ≠ '\x09' := by intro hc; subst hc; simp at h3
  have e5 : c ≠ '\x0a' := by intro hc; subst hc; simp at h3
  have e6 : c ≠ '\x0c' := by intro hc; subst hc; simp at h3
  have e7 : c ≠ '\x0d' := by intro hc; subst hc; simp at h3
  simp [escapeChar, h1, h2, e3, e4, e5, e6, e7]
  omega

theorem escapeStr_plain (s : List Char) (h : s.all plainChar = true) : escapeStr s = s := by
  induction s with
  | nil => simp [escapeStr, concatAll]
  | cons c cs ih =>
    simp only [List.all_cons, Bool.and_eq_true] at h
    simp [escapeStr, concatAll, escapeChar_plain c h.1]
    simpa [escapeStr] using ih h.2

theorem stringifyStr_plain (s : List Char) (h : s.all plainChar = true) :
    stringifyStr s = '\x22' :: s ++ ['\x22'] := by
  simp [stringifyStr, escapeStr_plain s h]

theorem parseStr_roundtrip :
    ∀ (s rest : List Char), s.all plainChar = true →
      parseStr (s ++ '\x22' :: rest) = some (s, rest) := by
  intro s
  induction s with
  | nil => intro rest _; unfold parseStr; simp
  | cons c cs ih =>
    intro rest h
    simp only [List.all_cons, Bool.and_eq_true] at h
    obtain ⟨h1, h2, _⟩ := plainChar_spec c h.1
    unfold parseStr
    simp [h1, h2, ih rest h.2]

theorem headNonWord_cons (c : Char) (l : List Char) (hc : isWordChar c = false) :
    headNonWord (c :: l) = true := by
  simp [headNonWord, hc]

theorem replaceRuns_strSeg (k X : List Char) (hk : k.all plainChar = true) :
    replaceRuns (stringifyStr k ++ X) = stringifyStr (replaceRuns k) ++ replaceRuns X := by
  rw [stringifyStr_plain k hk, stringifyStr_plain _ (replaceRuns_plain k hk)]
  simp only [List.cons_append, List.append_assoc, List.singleton_append, List.nil_append]
  rw [replaceRuns_nonword_cons _ _ (by decide)]
  rw [replaceRuns_append k ('\x22' :: X) (headNonWord_cons _ _ (by decide))]
  rw [replaceRuns_nonword_cons _ _ (by decide)]

theorem replaceRuns_sep_cons (c : Char) (hc : isWordChar c = false) (A B : List Char) :
    replaceRuns (A ++ c :: B) = replaceRuns A ++ c :: replaceRuns B := by
  rw [replaceRuns_append A (c :: B) (headNonWord_cons _ _ hc), replaceRuns_nonword_cons _ _ hc]

mutual
/-- Operator rewriting commutes with serialization: on a plain value,
rewriting the serialized text rewrites exactly every key and every
string leaf, at word boundaries, wherever they occur. -/
theorem commuteJ (j : Json) (h : plainJson j = true) :
    replaceRuns (stringifyJson j) = stringifyJson (mapStrsJson replaceRuns j) := by
  cases j with
  | str s =>
    have hs : s.all plainChar = true := h
    show replaceRuns (stringifyStr s) = stringifyStr (replaceRuns s)
    have h2 := replaceRuns_strSeg s [] hs
    simpa [replaceRuns_nil] using h2
  | obj fs =>
    have hf : plainFields fs = true := h
    have hc := commuteF fs hf
    cases fs with
    | nil => decide
    | cons k v r =>
      show replaceRuns (('\x7b' :: stringifyFields (JFields.cons k v r)) ++ ['\x7d']) =
        ('\x7b' :: stringifyFields (mapStrsFields replaceRuns (JFields.cons k v r))) ++ ['\x7d']
      rw [show (['\x7d'] : List Char) = '\x7d' :: [] from rfl]
      rw [replaceRuns_sep_cons _ (by decide), replaceRuns_nil,
        replaceRuns_nonword_cons _ _ (by decide), hc]
  | arr es =>
    have he : plainElems es = true := h
    have hc := commuteE es he
    cases es with
    | nil => decide
    | cons v r =>
      show replaceRuns (('[' :: stringifyElems (JElems.cons v r)) ++ [']']) =
        ('[' :: stringifyElems (mapStrsElems replaceRuns (JElems.cons v r))) ++ [']']
      rw [show ([']'] : List Char) = ']' :: [] from rfl]
      rw [replaceRuns_sep_cons _ (by decide), replaceRuns_nil,
        replaceRuns_nonword_cons _ _ (by decide), hc]
  | dat d => simp [plainJson] at h
  | regexVal p f => simp [plainJson] at h
termination_by sizeJ j
decreasing_by
  all_goals subst_vars
  all_goals simp [sizeJ]

/-- Field-list part of `commuteJ`. -/
theorem commuteF (fs : JFields) (h : plainFields fs = true) :
    replaceRuns (stringifyFields fs) = stringifyFields (mapStrsFields replaceRuns fs) := by
  cases fs with
  | nil => decide
  | cons k v r =>
    simp only [plainFields, Bool.and_eq_true] at h
    obtain ⟨⟨hk, hv⟩, hr⟩ := h
    have hcv := commuteJ v hv
    cases r with
    | nil =>
      show replaceRuns (stringifyStr k ++ ':' :: stringifyJson v) =
        stringifyStr (replaceRuns k) ++ ':' :: stringifyJson (mapStrsJson replaceRuns v)
      rw [replaceRuns_strSeg k _ hk, replaceRuns_nonword_cons _ _ (by decide), hcv]
    | cons k2 v2 r2 =>
      have hcr := commuteF (JFields.cons k2 v2 r2) hr
      show replaceRuns ((stringifyStr k ++ ':' :: stringifyJson v) ++ ',' :: stringifyFields (JFields.cons k2 v2 r2)) =
        (stringifyStr (replaceRuns k) ++ ':' :: stringifyJson (mapStrsJson replaceRuns v)) ++ ',' :: stringifyFields (mapStrsFields replaceRuns (JFields.cons k2 v2 r2))
      rw [replaceRuns_sep_cons _ (by decide), hcr,
        replaceRuns_strSeg k _ hk, replaceRuns_nonword_cons _ _ (by decide), hcv]
termination_by sizeF fs
decreasing_by
  all_goals subst_vars
  all_goals simp [sizeF]
  all_goals omega

/-- Element-list part of `commuteJ`. -/
theorem commuteE (es : JElems) (h : plainElems es = true) :
    replaceRuns (stringifyElems es) = stringifyElems (mapStrsElems replaceRuns es) := by
  cases es with
  | nil => decide
  | cons v r =>
    simp only [plainElems, Bool.and_eq_true] at h
    obtain ⟨hv, hr⟩ := h
    have hcv := commuteJ v hv
    cases r with
    | nil =>
      show replaceRuns (stringifyJson v) = stringifyJson (mapStrsJson replaceRuns v)
      exact hcv
    | cons v2 r2 =>
      have hcr := commuteE (JElems.cons v2 r2) hr
      show replaceRuns (stringifyJson v ++ ',' :: stringifyElems (JElems.cons v2 r2)) =
        stringifyJson (mapStrsJson replaceRuns v) ++ ',' :: stringifyElems (mapStrsElems replaceRuns (JElems.cons v2 r2))
      rw [replaceRuns_sep_cons _ (by decide), hcv, hcr]
termination_by sizeE es
decreasing_by
  all_goals subst_vars
  all_goals simp [sizeE]
  all_goals omega
end

theorem sizeJ_pos (j : Json) : 1 ≤ sizeJ j := by
  cases j <;> simp [sizeJ]

theorem sizeF_pos (fs : JFields) (h : fs ≠ JFields.nil) : 1 ≤ sizeF fs := by
  cases fs with
  | nil => exact absurd rfl h
  | cons k v r => simp [sizeF]

theorem sizeE_pos (es : JElems) (h : es ≠ JElems.nil) : 1 ≤ sizeE es := by
  cases es with
  | nil => exact absurd rfl h
  | cons v r => simp [sizeE]

theorem stringifyFields_cons_head (k : List Char) (v : Json) (r : JFields) :
    ∃ t, stringifyFields (JFields.cons k v r) = '\x22' :: t := by
  cases r with
  | nil => exact ⟨escapeStr k ++ ('\x22' :: (':' :: stringifyJson v)), by simp [stringifyFields, stringifyStr]⟩
  | cons k2 v2 r2 =>
    exact ⟨escapeStr k ++ ('\x22' :: (':' :: (stringifyJson v ++ ',' :: stringifyFields (JFields.cons k2 v2 r2)))),
      by simp [stringifyFields, stringifyStr]⟩

theorem stringifyJson_head (v : Json) (h : plainJson v = true) :
    ∃ c t, stringifyJson v = c :: t ∧ c ≠ ']' ∧ c ≠ ',' := by
  cases v with
  | str s =>
    refine ⟨'\x22', escapeStr s ++ ['\x22'], ?_, by decide, by decide⟩
    show ('\x22' :: escapeStr s) ++ ['\x22'] = '\x22' :: (escapeStr s ++ ['\x22'])
    simp
  | obj fs =>
    cases fs with
    | nil => exact ⟨'\x7b', ['\x7d'], rfl, by decide, by decide⟩
    | cons k v r =>
      refine ⟨'\x7b', stringifyFields (JFields.cons k v r) ++ ['\x7d'], ?_, by decide, by decide⟩
      show ('\x7b' :: stringifyFields (JFields.cons k v r)) ++ ['\x7d'] =
        '\x7b' :: (stringifyFields (JFields.cons k v r) ++ ['\x7d'])
      simp
  | arr es =>
    cases es with
    | nil => exact ⟨'[', [']'], rfl, by decide, by decide⟩
    | cons v r =>
      refine ⟨'[', stringifyElems (JElems.cons v r) ++ [']'], ?_, by decide, by decide⟩
      show ('[' :: stringifyElems (JElems.cons v r)) ++ [']'] =
        '[' :: (stringifyElems (JElems.cons v r) ++ [']'])
      simp
  | dat d => simp [plainJson] at h
  | regexVal p fl => simp [plainJson] at h

/-- Roundtrip of the serializer through the parser: with fuel at least
the nesting size, parsing the serialization of a plain value yields the
value back and consumes exactly its text. -/
theorem parse_roundtrip :
    ∀ f : Nat,
      (∀ (j : Json) (rest : List Char), plainJson j = true → sizeJ j ≤ f →
        parseJson f (stringifyJson j ++ rest) = some (j, rest)) ∧
      (∀ (fs : JFields) (rest : List Char), plainFields fs = true → fs ≠ JFields.nil → sizeF fs ≤ f →
        parseFields f (stringifyFields fs ++ '\x7d' :: rest) = some (fs, rest)) ∧
      (∀ (es : JElems) (rest : List Char), plainElems es = true → es ≠ JElems.nil → sizeE es ≤ f →
        parseElems f (stringifyElems es ++ ']' :: rest) = some (es, rest)) := by
  intro f
  induction f with
  | zero =>
    refine ⟨?_, ?_, ?_⟩
    · intro j rest _ hs
      have := sizeJ_pos j
      omega
    · intro fs rest _ hne hs
      have := sizeF_pos fs hne
      omega
    · intro es rest _ hne hs
      have := sizeE_pos es hne
      omega
  | succ f ih =>
    obtain ⟨ihJ, ihF, ihE⟩ := ih
    refine ⟨?_, ?_, ?_⟩
    · intro j rest hp hs
      cases j with
      | str s =>
        have hps : s.all plainChar = true := hp
        show parseJson (f + 1) ((('\x22' :: escapeStr s) ++ ['\x22']) ++ rest) = some (Json.str s, rest)
        rw [escapeStr_plain s hps]
        simp only [List.cons_append, List.append_assoc, List.singleton_append, List.nil_append]
        unfold parseJson
        simp [parseStr_roundtrip s rest hps]
      | obj fs =>
        cases fs with
        | nil =>
          show parseJson (f + 1) ((['\x7b', '\x7d'] : List Char) ++ rest) = some (Json.obj JFields.nil, rest)
          unfold parseJson
          simp
        | cons k v r =>
          have hpf : plainFields (JFields.cons k v r) = true := hp
          have hsz : sizeF (JFields.cons k v r) ≤ f := by
            simp only [sizeJ] at hs
            omega
          obtain ⟨t, ht⟩ := stringifyFields_cons_head k v r
          have hpar2 : parseFields f ('\x22' :: (t ++ '\x7d' :: rest)) = some (JFields.cons k v r, rest) := by
            rw [show ('\x22' : Char) :: (t ++ '\x7d' :: rest) = ('\x22' :: t) ++ '\x7d' :: rest from by simp,
              ← ht]
            exact ihF (JFields.cons k v r) rest hpf (by simp) hsz
          show parseJson (f + 1) ((('\x7b' :: stringifyFields (JFields.cons k v r)) ++ ['\x7d']) ++ rest) =
            some (Json.obj (JFields.cons k v r), rest)
          simp only [List.cons_append, List.append_assoc, List.singleton_append, List.nil_append]
          unfold parseJson
          rw [ht]
          simp only [List.cons_append, List.head?_cons]
          simp [hpar2]
      | arr es =>
        cases es with
        | nil =>
          show parseJson (f + 1) ((['[', ']'] : List Char) ++ rest) = some (Json.arr JElems.nil, rest)
          unfold parseJson
          simp
        | cons v r =>
          have hpe : plainElems (JElems.cons v r) = true := hp
          have hpv : plainJson v = true := by
            simp only [plainElems, Bool.and_eq_true] at hpe
            exact hpe.1
          have hsz : sizeE (JElems.cons v r) ≤ f := by
            simp only [sizeJ] at hs
            omega
          obtain ⟨c, t, ht, hc1, _⟩ := stringifyJson_head v hpv
          have htE : ∃ u, stringifyElems (JElems.cons v r) = c :: u := by
            cases r with
            | nil => exact ⟨t, by simp [stringifyElems, ht]⟩
            | cons v2 r2 =>
              exact ⟨t ++ ',' :: stringifyElems (JElems.cons v2 r2), by simp [stringifyElems, ht]⟩
          obtain ⟨u, hu⟩ := htE
          have hpar2 : parseElems f (c :: (u ++ ']' :: rest)) = some (JElems.cons v r, rest) := by
            rw [show c :: (u ++ ']' :: rest) = (c :: u) ++ ']' :: rest from by simp, ← hu]
            exact ihE (JElems.cons v r) rest hpe (by simp) hsz
          show parseJson (f + 1) ((('[' :: stringifyElems (JElems.cons v r)) ++ [']']) ++ rest) =
            some (Json.arr (JElems.cons v r), rest)
          simp only [List.cons_append, List.append_assoc, List.singleton_append, List.nil_append]
          unfold parseJson
          rw [hu]
          simp only [List.cons_append, List.head?_cons]
          simp [hpar2, hc1]
      | dat d => simp [plainJson] at hp
      | regexVal p fl => simp [plainJson] at hp
    · intro fs rest hp hne hs
      cases fs with
      | nil => exact absurd rfl hne
      | cons k v r =>
        simp only [plainFields, Bool.and_eq_true] at hp
        obtain ⟨⟨hk, hv⟩, hr⟩ := hp
        cases r with
        | nil =>
          have hszv : sizeJ v ≤ f := by
            simp only [sizeF, sizeE] at hs
            omega
          show parseFields (f + 1) ((stringifyStr k ++ ':' :: stringifyJson v) ++ '\x7d' :: rest) =
            some (JFields.cons k v JFields.nil, rest)
          rw [show stringifyStr k = ('\x22' :: escapeStr k) ++ ['\x22'] from by simp [stringifyStr],
            escapeStr_plain k hk]
          simp only [List.cons_append, List.append_assoc, List.singleton_append, List.nil_append]
          unfold parseFields
          simp [parseStr_roundtrip k (':' :: (stringifyJson v ++ '\x7d' :: rest)) hk,
            ihJ v ('\x7d' :: rest) hv hszv]
        | cons k2 v2 r2 =>
          have hszv : sizeJ v ≤ f := by
            simp only [sizeF] at hs
            omega
          have hszr : sizeF (JFields.cons k2 v2 r2) ≤ f := by
            simp only [sizeF] at hs ⊢
            omega
          have hpr2 := ihF (JFields.cons k2 v2 r2) rest hr (by simp) hszr
          show parseFields (f + 1)
              (((stringifyStr k ++ ':' :: stringifyJson v) ++ ',' :: stringifyFields (JFields.cons k2 v2 r2)) ++ '\x7d' :: rest) =
            some (JFields.cons k v (JFields.cons k2 v2 r2), rest)
          rw [show stringifyStr k = ('\x22' :: escapeStr k) ++ ['\x22'] from by simp [stringifyStr],
            escapeStr_plain k hk]
          simp only [List.cons_append, List.append_assoc, List.singleton_append, List.nil_append]
          unfold parseFields
          simp [parseStr_roundtrip k (':' :: (stringifyJson v ++ ',' :: (stringifyFields (JFields.cons k2 v2 r2) ++ '\x7d' :: rest))) hk,
            ihJ v (',' :: (stringifyFields (JFields.cons k2 v2 r2) ++ '\x7d' :: rest)) hv hszv, hpr2]
    · intro es rest hp hne hs
      cases es with
      | nil => exact absurd rfl hne
      | cons v r =>
        simp only [plainElems, Bool.and_eq_true] at hp
        obtain ⟨hv, hr⟩ := hp
        cases r with
        | nil =>
          have hszv : sizeJ v ≤ f := by
            simp only [sizeE] at hs
            omega
          show parseElems (f + 1) (stringifyJson v ++ ']' :: rest) = some (JElems.cons v JElems.nil, rest)
          unfold parseElems
          simp [ihJ v (']' :: rest) hv hszv]
        | cons v2 r2 =>
          have hszv : sizeJ v ≤ f := by
            simp only [sizeE] at hs
            omega
          have hszr : sizeE (JElems.cons v2 r2) ≤ f := by
            simp only [sizeE] at hs ⊢
            omega
          have hpr2 := ihE (JElems.cons v2 r2) rest hr (by simp) hszr
          show parseElems (f + 1)
              ((stringifyJson v ++ ',' :: stringifyElems (JElems.cons v2 r2)) ++ ']' :: rest) =
            some (JElems.cons v (JElems.cons v2 r2), rest)
          simp only [List.cons_append, List.append_assoc, List.singleton_append, List.nil_append]
          unfold parseElems
          simp [ihJ v (',' :: (stringifyElems (JElems.cons v2 r2) ++ ']' :: rest)) hv hszv, hpr2]

mutual
/-- Operator rewriting keeps a plain value plain: the rewrite only
inserts dollar signs, which need no escaping. -/
theorem plainMapJ (j : Json) (h : plainJson j = true) :
    plainJson (mapStrsJson replaceRuns j) = true := by
  cases j with
  | str s => exact replaceRuns_plain s h
  | obj fs => exact plainMapF fs h
  | arr es => exact plainMapE es h
  | dat d => simp [plainJson] at h
  | regexVal p fl => simp [plainJson] at h
termination_by sizeJ j
decreasing_by
  all_goals subst_vars
  all_goals simp [sizeJ]

/-- Field-list part of `plainMapJ`. -/
theorem plainMapF (fs : JFields) (h : plainFields fs = true) :
    plainFields (mapStrsFields replaceRuns fs) = true := by
  cases fs with
  | nil => simp [mapStrsFields, plainFields]
  | cons k v r =>
    simp only [plainFields, Bool.and_eq_true] at h
    obtain ⟨⟨hk, hv⟩, hr⟩ := h
    have h1 := replaceRuns_plain k hk
    have h2 := plainMapJ v hv
    have h3 := plainMapF r hr
    simp [mapStrsFields, plainFields, h1, h2, h3]
termination_by sizeF fs
decreasing_by
  all_goals subst_vars
  all_goals simp [sizeF]
  all_goals omega

/-- Element-list part of `plainMapJ`. -/
theorem plainMapE (es : JElems) (h : plainElems es = true) :
    plainElems (mapStrsElems replaceRuns es) = true := by
  cases es with
  | nil => simp [mapStrsElems, plainElems]
  | cons v r =>
    simp only [plainElems, Bool.and_eq_true] at h
    obtain ⟨hv, hr⟩ := h
    have h2 := plainMapJ v hv
    have h3 := plainMapE r hr
    simp [mapStrsElems, plainElems, h2, h3]
termination_by sizeE es
decreasing_by
  all_goals subst_vars
  all_goals simp [sizeE]
  all_goals omega
end

mutual
/-- The nesting size of a plain value is less than the length of its
serialization, so the input length is always enough parser fuel. -/
theorem sizeLeJ (j : Json) (h : plainJson j = true) :
    sizeJ j < (stringifyJson j).length := by
  cases j with
  | str s =>
    show 1 < (('\x22' :: escapeStr s) ++ ['\x22']).length
    simp
  | obj fs =>
    cases fs with
    | nil => decide
    | cons k v r =>
      have h1 := sizeLeF (JFields.cons k v r) h
      show 1 + sizeF (JFields.cons k v r) < (('\x7b' :: stringifyFields (JFields.cons k v r)) ++ ['\x7d']).length
      simp only [List.length_append, List.length_cons, List.length_singleton]
      omega
  | arr es =>
    cases es with
    | nil => decide
    | cons v r =>
      have h1 := sizeLeE (JElems.cons v r) h
      show 1 + sizeE (JElems.cons v r) < (('[' :: stringifyElems (JElems.cons v r)) ++ [']']).length
      simp only [List.length_append, List.length_cons, List.length_singleton]
      omega
  | dat d => simp [plainJson] at h
  | regexVal p fl => simp [plainJson] at h
termination_by sizeJ j
decreasing_by
  all_goals subst_vars
  all_goals simp [sizeJ]

/-- Field-list part of `sizeLeJ`. -/
theorem sizeLeF (fs : JFields) (h : plainFields fs = true) :
    sizeF fs ≤ (stringifyFields fs).length := by
  cases fs with
  | nil => simp [stringifyFields, sizeF]
  | cons k v r =>
    simp only [plainFields, Bool.and_eq_true] at h
    obtain ⟨⟨hk, hv⟩, hr⟩ := h
    have h1 := sizeLeJ v hv
    cases r with
    | nil =>
      show sizeF (JFields.cons k v JFields.nil) ≤ ((('\x22' :: escapeStr k) ++ ['\x22']) ++ ':' :: stringifyJson v).length
      simp only [sizeF, Nat.max_zero, List.length_append, List.length_cons, List.length_singleton]
      omega
    | cons k2 v2 r2 =>
      have h2 := sizeLeF (JFields.cons k2 v2 r2) hr
      show sizeF (JFields.cons k v (JFields.cons k2 v2 r2)) ≤
        (((('\x22' :: escapeStr k) ++ ['\x22']) ++ ':' :: stringifyJson v) ++ ',' :: stringifyFields (JFields.cons k2 v2 r2)).length
      simp only [sizeF, List.length_append, List.length_cons, List.length_singleton] at h2 ⊢
      omega
termination_by sizeF fs
decreasing_by
  all_goals subst_vars
  all_goals simp [sizeF]
  all_goals omega

/-- Element-list part of `sizeLeJ`. -/
theorem sizeLeE (es : JElems) (h : plainElems es = true) :
    sizeE es ≤ (stringifyElems es).length := by
  cases es with
  | nil => simp [stringifyElems, sizeE]
  | cons v r =>
    simp only [plainElems, Bool.and_eq_true] at h
    obtain ⟨hv, hr⟩ := h
    have h1 := sizeLeJ v hv
    cases r with
    | nil =>
      show sizeE (JElems.cons v JElems.nil) ≤ (stringifyJson v).length
      simp only [sizeE, Nat.max_zero]
      omega
    | cons v2 r2 =>
      have h2 := sizeLeE (JElems.cons v2 r2) hr
      show sizeE (JElems.cons v (JElems.cons v2 r2)) ≤
        (stringifyJson v ++ ',' :: stringifyElems (JElems.cons v2 r2)).length
      simp only [sizeE, List.length_append, List.length_cons] at h2 ⊢
      omega
termination_by sizeE es
decreasing_by
  all_goals subst_vars
  all_goals simp [sizeE]
  all_goals omega
end

theorem removeReserved_plain (qs : JFields) (h : plainFields qs = true) :
    plainFields (removeReserved qs) = true := by
  cases qs with
  | nil => simp [removeReserved, plainFields]
  | cons k v r =>
    simp only [plainFields, Bool.and_eq_true] at h
    obtain ⟨⟨hk, hv⟩, hr⟩ := h
    have ih := removeReserved_plain r hr
    by_cases hm : k ∈ reservedKeys
    · simp [removeReserved, hm, ih]
    · simp [removeReserved, hm, plainFields, hk, hv, ih]
termination_by sizeF qs
decreasing_by
  subst_vars
  simp [sizeF]
  omega

/-- Master characterization of the filter pipeline on plain mappings:
delete the reserved keys, rewrite every key and string value at word
boundaries, then apply the date special case.  In particular the JSON
roundtrip never fails on plain mappings. -/
theorem apiFilters_structural (qs : JFields) (h : plainFields qs = true) :
    apiFilters qs = some (dateTransform (mapStrsJson replaceRuns (Json.obj (removeReserved qs)))) := by
  have hrr : plainFields (removeReserved qs) = true := removeReserved_plain qs h
  have hpj : plainJson (Json.obj (removeReserved qs)) = true := hrr
  have hcomm := commuteJ _ hpj
  have hplain2 : plainJson (mapStrsJson replaceRuns (Json.obj (removeReserved qs))) = true :=
    plainMapJ _ hpj
  have hsize : sizeJ (mapStrsJson replaceRuns (Json.obj (removeReserved qs))) ≤
      (stringifyJson (mapStrsJson replaceRuns (Json.obj (removeReserved qs)))).length :=
    Nat.le_of_lt (sizeLeJ _ hplain2)
  have hrt := (parse_roundtrip
      ((stringifyJson (mapStrsJson replaceRuns (Json.obj (removeReserved qs)))).length)).1
      (mapStrsJson replaceRuns (Json.obj (removeReserved qs))) [] hplain2 hsize
  rw [List.append_nil] at hrt
  unfold apiFilters
  rw [hcomm]
  simp [hrt]

theorem keysF_mapStrs (g : List Char → List Char) (fs : JFields) :
    keysF (mapStrsFields g fs) = (keysF fs).map g := by
  cases fs with
  | nil => simp [mapStrsFields, keysF]
  | cons k v r =>
    have ih := keysF_mapStrs g r
    simp [mapStrsFields, keysF, ih]
termination_by sizeF fs
decreasing_by
  subst_vars
  simp [sizeF]
  omega

theorem keysF_setF (fs : JFields) (k : List Char) (v : Json) :
    keysF (setF fs k v) = keysF fs := by
  cases fs with
  | nil => simp [setF]
  | cons k2 v2 r =>
    have ih := keysF_setF r k v
    simp [setF, keysF, ih]
termination_by sizeF fs
decreasing_by
  subst_vars
  simp [sizeF]
  omega

theorem jsonKeys_dateTransform (j : Json) : jsonKeys (dateTransform j) = jsonKeys j := by
  cases j with
  | obj fs =>
    show jsonKeys (match getF fs dateKey with
      | some v => if truthy v then Json.obj (setF fs dateKey (Json.obj (dateFilterOf v))) else Json.obj fs
      | none => Json.obj fs) = jsonKeys (Json.obj fs)
    cases getF fs dateKey with
    | none => rfl
    | some v =>
      by_cases ht : truthy v
      · simp [ht, jsonKeys, keysF_setF]
      · simp [ht]
  | str s => rfl
  | arr es => rfl
  | dat d => rfl
  | regexVal p fl => rfl

theorem getF_eq_none_iff (fs : JFields) (k : List Char) :
    getF fs k = none ↔ k ∉ keysF fs := by
  cases fs with
  | nil => simp [getF, keysF]
  | cons k2 v r =>
    have ih := getF_eq_none_iff r k
    show (match getF r k with
      | some w => some w
      | none => if k2 = k then some v else none) = none ↔ k ∉ keysF (JFields.cons k2 v r)
    cases hg : getF r k with
    | some w => simp [keysF, ih.not.mp (by simp [hg])]
    | none =>
      by_cases he : k2 = k
      · simp [he, keysF]
      · simp [he, keysF, ih.mp hg]
        exact fun h : k = k2 => he h.symm
termination_by sizeF fs
decreasing_by
  subst_vars
  simp [sizeF]
  omega

theorem keysF_removeReserved_not_reserved (qs : JFields) (k : List Char)
    (h : k ∈ keysF (removeReserved qs)) : k ∉ reservedKeys := by
  cases qs with
  | nil => simp [removeReserved, keysF] at h
  | cons k2 v r =>
    by_cases hm : k2 ∈ reservedKeys
    · simp only [removeReserved, hm, if_true] at h
      exact keysF_removeReserved_not_reserved r k h
    · simp only [removeReserved, hm, if_false, keysF, List.mem_cons] at h
      rcases h with h | h
      · subst h; exact hm
      · exact keysF_removeReserved_not_reserved r k h
termination_by sizeF qs
decreasing_by
  all_goals subst_vars
  all_goals simp [sizeF]
  all_goals omega

theorem keysF_removeReserved_sub (qs : JFields) (k : List Char)
    (h : k ∈ keysF (removeReserved qs)) : k ∈ keysF qs := by
  cases qs with
  | nil => simp [removeReserved, keysF] at h
  | cons k2 v r =>
    by_cases hm : k2 ∈ reservedKeys
    · simp only [removeReserved, hm, if_true] at h
      exact List.mem_cons_of_mem k2 (keysF_removeReserved_sub r k h)
    · simp only [removeReserved, hm, if_false, keysF, List.mem_cons] at h
      rcases h with h | h
      · simp [keysF, h]
      · exact List.mem_cons_of_mem k2 (keysF_removeReserved_sub r k h)
termination_by sizeF qs
decreasing_by
  all_goals subst_vars
  all_goals simp [sizeF]
  all_goals omega

theorem replaceRuns_fix_of_noDollar (k r : List Char) (hr : ('$' : Char) ∉ r)
    (he : replaceRuns k = r) : k = r := by
  have h1 : ('$' : Char) ∉ replaceRuns k := by rw [he]; exact hr
  rw [← replaceRuns_noDollar k h1, he]

theorem dateTransform_mapped_no_date (qs : JFields) (hd : getF qs dateKey = none) :
    dateTransform (mapStrsJson replaceRuns (Json.obj (removeReserved qs))) =
      mapStrsJson replaceRuns (Json.obj (removeReserved qs)) := by
  have hnod : getF (mapStrsFields replaceRuns (removeReserved qs)) dateKey = none := by
    rw [getF_eq_none_iff, keysF_mapStrs]
    intro hmem
    obtain ⟨k0, hk0, heq⟩ := List.mem_map.mp hmem
    have hk0d : k0 = dateKey := replaceRuns_fix_of_noDollar k0 dateKey (by decide) heq
    rw [hk0d] at hk0
    exact (getF_eq_none_iff qs dateKey).mp hd (keysF_removeReserved_sub qs dateKey hk0)
  show dateTransform (Json.obj (mapStrsFields replaceRuns (removeReserved qs))) =
    Json.obj (mapStrsFields replaceRuns (removeReserved qs))
  simp [dateTransform, hnod]

theorem specCeil_eq (t l : Nat) (hl : 0 < l) :
    (if t % l = 0 then t / l else t / l + 1) = specCeil t l := by
  unfold specCeil
  have hdm := Nat.div_add_mod t l
  have hml : t % l < l := Nat.mod_lt t hl
  by_cases h0 : t % l = 0
  · simp only [h0, if_true]
    have ht : t + l - 1 = l * (t / l) + (l - 1) := by omega
    rw [ht, Nat.mul_add_div hl,
      (Nat.div_eq_of_lt (show l - 1 < l by omega) : (l - 1) / l = 0)]
    omega
  · simp only [h0, if_false]
    have hb : l * (t / l + 1) = l * (t / l) + l := by ring
    have ht : t + l - 1 = l * (t / l + 1) + (t % l - 1) := by omega
    rw [ht, Nat.mul_add_div hl,
      (Nat.div_eq_of_lt (show t % l - 1 < l by omega) : (t % l - 1) / l = 0)]

theorem specCeil_bounds (t l : Nat) (hl : 0 < l) :
    t ≤ specCeil t l * l ∧ specCeil t l * l < t + l := by
  unfold specCeil
  have hdm := Nat.div_add_mod (t + l - 1) l
  have hml : (t + l - 1) % l < l := Nat.mod_lt _ hl
  have hcomm : ((t + l - 1) / l) * l = l * ((t + l - 1) / l) := Nat.mul_comm _ _
  constructor
  · omega
  · omega

theorem specParsedOr_eq (o : Option (List Char)) (d : Int) :
    specParsedOr o d = jsFalsyOr (jsParseIntOpt o) d := by
  cases o with
  | none => rfl
  | some s =>
    cases h : jsParseInt s with
    | none => simp [specParsedOr, jsFalsyOr, jsParseIntOpt, h]
    | some n => simp [specParsedOr, jsFalsyOr, jsParseIntOpt, h]

/-- C1: for every non-negative total, positive limit and positive page,
getPagination returns the record with pages equal to the ceiling of
total over limit (witnessed both by the closed form `specCeil` and by
its defining bounds), currentPage, limit and total copied through,
hasNext true exactly when page is below pages, hasPrevious true exactly
when page exceeds one, nextPage and previousPage equal to page plus or
minus one exactly when the corresponding flag holds and null otherwise;
in particular getPagination 50 10 3 is the record
(50, 5, 3, 10, true, true, 4, 2). -/
theorem getPagination_correct (total limit page : Nat) (hl : 0 < limit) (hp : 0 < page) :
    (getPagination total limit page).total = total ∧
    (getPagination total limit page).currentPage = page ∧
    (getPagination total limit page).limit = limit ∧
    (getPagination total limit page).pages = JsNum.fin (specCeil total limit) ∧
    (total ≤ specCeil total limit * limit ∧ specCeil total limit * limit < total + limit) ∧
    ((getPagination total limit page).hasNext = true ↔ page < specCeil total limit) ∧
    ((getPagination total limit page).hasPrevious = true ↔ 1 < page) ∧
    (getPagination total limit page).nextPage =
      (if page < specCeil total limit then some (page + 1) else none) ∧
    (getPagination total limit page).previousPage =
      (if 1 < page then some (page - 1) else none) ∧
    getPagination 50 10 3 = PaginationInfo.mk 50 (JsNum.fin 5) 3 10 true true (some 4) (some 2) := by
  have hne : limit ≠ 0 := Nat.pos_iff_ne_zero.mp hl
  have hceq := specCeil_eq total limit hl
  refine ⟨rfl, rfl, rfl, ?_, specCeil_bounds total limit hl, ?_, ?_, ?_, ?_, by decide⟩
  · simp [getPagination, jsCeilDiv, hne, hceq]
  · simp [getPagination, jsCeilDiv, jsLtNum, hne, hceq]
  · simp [getPagination]
  · simp [getPagination, jsCeilDiv, jsLtNum, hne, hceq]
  · simp [getPagination]

/-- Witness for C1 at the spec's own example (50, 10, 3). -/
theorem getPagination_correct_witness :
    (0 < 10 ∧ 0 < 3) ∧
    getPagination 50 10 3 = PaginationInfo.mk 50 (JsNum.fin 5) 3 10 true true (some 4) (some 2) :=
  ⟨⟨by decide, by decide⟩,
    (getPagination_correct 50 10 3 (by decide) (by decide)).2.2.2.2.2.2.2.2.2⟩

/-- C8: with limit zero the source neither fails nor signals an error;
it returns a record whose pages value is non-finite (Infinity for a
positive total, NaN for total zero), so a zero limit is a precondition
violation rather than a handled case. -/
theorem getPagination_zero_limit (total page : Nat) :
    ((getPagination total 0 page).pages = JsNum.inf ∨
      (getPagination total 0 page).pages = JsNum.nan) ∧
    ((getPagination total 0 page).pages).isFinite = false ∧
    (getPagination total 0 page).total = total ∧
    (getPagination total 0 page).currentPage = page := by
  by_cases h0 : total = 0 <;>
    simp [getPagination, jsCeilDiv, h0, JsNum.isFinite]

/-- C4 (amended): paginate computes page and limit as the parsed
integer values of the corresponding parameters with fallback to 1 and
100 when the parameter is missing, when parsing fails, or when the
parsed value is zero (the falsy-zero case the original claim omitted);
it applies skip = (page - 1) * limit and limit to the handle, touches
nothing else, and never errors (it is a total function). -/
theorem paginate_defaults (af : ApiFeatures) :
    (ApiFeatures.paginate af).query.skipVal =
      some ((specParsedOr (getStr af.queryString pageKey) 1 - 1) *
        specParsedOr (getStr af.queryString limitKey) 100) ∧
    (ApiFeatures.paginate af).query.limitVal =
      some (specParsedOr (getStr af.queryString limitKey) 100) ∧
    (∀ d : Int, specParsedOr none d = d) ∧
    (∀ s d, jsParseInt s = none → specParsedOr (some s) d = d) ∧
    (∀ s d, jsParseInt s = some 0 → specParsedOr (some s) d = d) ∧
    (∀ s d n, jsParseInt s = some n → n ≠ 0 → specParsedOr (some s) d = n) ∧
    (ApiFeatures.paginate af).query.finds = af.query.finds ∧
    (ApiFeatures.paginate af).query.populates = af.query.populates ∧
    (ApiFeatures.paginate af).total = af.total ∧
    (ApiFeatures.paginate af).queryString = af.queryString := by
  refine ⟨?_, ?_, fun d => rfl, ?_, ?_, ?_, rfl, rfl, rfl, rfl⟩
  · show some ((jsFalsyOr (jsParseIntOpt (getStr af.queryString pageKey)) 1 - 1) *
      jsFalsyOr (jsParseIntOpt (getStr af.queryString limitKey)) 100) = _
    rw [specParsedOr_eq, specParsedOr_eq]
  · show some (jsFalsyOr (jsParseIntOpt (getStr af.queryString limitKey)) 100) = _
    rw [specParsedOr_eq]
  · intro s d h
    simp [specParsedOr, h]
  · intro s d h
    simp [specParsedOr, h]
  · intro s d n h hn
    simp [specParsedOr, h, hn]

/-- Witness for C4 at page=3, limit=10: skip 20, limit 10. -/
theorem paginate_defaults_witness :
    (ApiFeatures.paginate (ApiFeatures.init emptyHandle qsPage3Limit10)).query.skipVal = some 20 ∧
    (ApiFeatures.paginate (ApiFeatures.init emptyHandle qsPage3Limit10)).query.limitVal = some 10 := by
  have h := paginate_defaults (ApiFeatures.init emptyHandle qsPage3Limit10)
  exact ⟨h.1.trans (by decide), h.2.1.trans (by decide)⟩

/-- Counterexample to C4 as stated: for page "0" parsing succeeds with
the integer 0, so the claim predicts page 0 and skip (0 - 1) * 10;
the code's falsy-or fallback yields page 1 and skip 0 instead. -/
theorem paginate_counterexample :
    jsParseInt ['0'] = some 0 ∧
    (ApiFeatures.paginate (ApiFeatures.init emptyHandle qsPage0Limit10)).query.skipVal = some 0 ∧
    (some (0 : Int) : Option Int) ≠ some (((0 : Int) - 1) * 10) :=
  ⟨by decide, by decide, by decide⟩

/-- C9: a page parameter equal to the numeric string "0" is treated as
missing (page 1, skip 0) and a limit parameter equal to "0" falls back
to the default 100, because the parsed value 0 is falsy. -/
theorem paginate_zero_string (af : ApiFeatures) :
    (getStr af.queryString pageKey = some ['0'] →
      (ApiFeatures.paginate af).query.skipVal = some 0) ∧
    (getStr af.queryString limitKey = some ['0'] →
      (ApiFeatures.paginate af).query.limitVal = some 100) := by
  constructor
  · intro h
    simp [ApiFeatures.paginate, h, jsParseIntOpt,
      (show jsParseInt ['0'] = some 0 by decide), jsFalsyOr]
  · intro h
    simp [ApiFeatures.paginate, h, jsParseIntOpt,
      (show jsParseInt ['0'] = some 0 by decide), jsFalsyOr]

/-- Witness for C9 at page="0", limit="0". -/
theorem paginate_zero_string_witness :
    (ApiFeatures.paginate (ApiFeatures.init emptyHandle qsPage0Limit0)).query.skipVal = some 0 ∧
    (ApiFeatures.paginate (ApiFeatures.init emptyHandle qsPage0Limit0)).query.limitVal = some 100 := by
  have h := paginate_zero_string (ApiFeatures.init emptyHandle qsPage0Limit0)
  exact ⟨h.1 (by decide), h.2 (by decide)⟩

/-- C5 (amended): populate uses the comma-split of the populate value
when the key is present with a non-empty (truthy) string value,
entirely overriding the caller-supplied default list; when the key is
absent or its value is the empty string the default list is used; one
expansion directive is appended per field, sequentially, so
"category,reviews" yields exactly two directives regardless of the
default list. -/
theorem populate_override (af : ApiFeatures) (opts : List (List Char)) :
    (getF af.queryString populateKey = none →
      (ApiFeatures.populate af opts).query.populates = af.query.populates ++ opts) ∧
    (getF af.queryString populateKey = some (Json.str []) →
      (ApiFeatures.populate af opts).query.populates = af.query.populates ++ opts) ∧
    (∀ s, getF af.queryString populateKey = some (Json.str s) → s ≠ [] →
      (ApiFeatures.populate af opts).query.populates = af.query.populates ++ splitComma s) ∧
    (∀ s, getF af.queryString populateKey = some (Json.str s) → s ≠ [] →
      (ApiFeatures.populate af opts).query.populates.length =
        af.query.populates.length + (splitComma s).length) ∧
    splitComma ['c','a','t','e','g','o','r','y',',','r','e','v','i','e','w','s'] =
      [['c','a','t','e','g','o','r','y'], ['r','e','v','i','e','w','s']] ∧
    (ApiFeatures.populate af opts).query.finds = af.query.finds ∧
    (ApiFeatures.populate af opts).query.skipVal = af.query.skipVal ∧
    (ApiFeatures.populate af opts).query.limitVal = af.query.limitVal ∧
    (ApiFeatures.populate af opts).total = af.total := by
  refine ⟨?_, ?_, ?_, ?_, by decide, rfl, rfl, rfl, rfl⟩
  · intro h
    simp [ApiFeatures.populate, h, truthyOpt]
  · intro h
    simp [ApiFeatures.populate, h, truthyOpt, truthy]
  · intro s h hs
    simp [ApiFeatures.populate, h, truthyOpt, truthy, strValOf, hs]
  · intro s h hs
    simp [ApiFeatures.populate, h, truthyOpt, truthy, strValOf, hs]

/-- Witness for C5 at populate="category,reviews" with the default
list ["other"]: the split overrides the default and applies exactly
two directives. -/
theorem populate_override_witness :
    (ApiFeatures.populate (ApiFeatures.init emptyHandle qsPopCatRev)
        [['o','t','h','e','r']]).query.populates =
      [['c','a','t','e','g','o','r','y'], ['r','e','v','i','e','w','s']] ∧
    (ApiFeatures.populate (ApiFeatures.init emptyHandle qsPopCatRev)
        [['o','t','h','e','r']]).query.populates.length = 2 := by
  have h := populate_override (ApiFeatures.init emptyHandle qsPopCatRev) [['o','t','h','e','r']]
  refine ⟨(h.2.2.1 ['c','a','t','e','g','o','r','y',',','r','e','v','i','e','w','s']
    (by decide) (by decide)).trans (by decide), ?_⟩
  rw [h.2.2.2.1 ['c','a','t','e','g','o','r','y',',','r','e','v','i','e','w','s']
    (by decide) (by decide)]
  decide

/-- Counterexample to C5 as stated: a populate key present with the
empty-string value is falsy, so the code uses the caller-supplied
default list, while the claim predicts the comma-split of the empty
string (one empty field). -/
theorem populate_counterexample :
    (ApiFeatures.populate (ApiFeatures.init emptyHandle qsPopEmpty)
        [['c','a','t','e','g','o','r','y']]).query.populates = [['c','a','t','e','g','o','r','y']] ∧
    splitComma [] = [[]] ∧
    ([['c','a','t','e','g','o','r','y']] : List (List Char)) ≠ [[]] :=
  ⟨by decide, by decide, by decide⟩

/-- C6: search leaves the instance unchanged when the search parameter
is absent or the empty string; when present and non-empty it appends
exactly one additional conjunctive constraint, the disjunction over
the given fields of the case-insensitive matcher RegExp(search, "i")
on each field; the built-in default field list is name, email,
title. -/
theorem search_structure (af : ApiFeatures) (flds : List (List Char)) :
    (getF af.queryString searchKey = none → ApiFeatures.search af flds = af) ∧
    (getF af.queryString searchKey = some (Json.str []) → ApiFeatures.search af flds = af) ∧
    (∀ s, getF af.queryString searchKey = some (Json.str s) → s ≠ [] →
      (ApiFeatures.search af flds).query.finds = af.query.finds ++ [searchPredicate s flds] ∧
      (ApiFeatures.search af flds).query.skipVal = af.query.skipVal ∧
      (ApiFeatures.search af flds).query.limitVal = af.query.limitVal ∧
      (ApiFeatures.search af flds).query.populates = af.query.populates ∧
      (ApiFeatures.search af flds).total = af.total ∧
      (ApiFeatures.search af flds).queryString = af.queryString) ∧
    searchPredicate ['b','o','b'] defaultSearchFields =
      Json.obj (JFields.cons orKey (Json.arr (JElems.cons
        (Json.obj (JFields.cons ['n','a','m','e'] (Json.regexVal ['b','o','b'] iFlag) JFields.nil))
        (JElems.cons
          (Json.obj (JFields.cons ['e','m','a','i','l'] (Json.regexVal ['b','o','b'] iFlag) JFields.nil))
          (JElems.cons
            (Json.obj (JFields.cons ['t','i','t','l','e'] (Json.regexVal ['b','o','b'] iFlag) JFields.nil))
            JElems.nil)))) JFields.nil) ∧
    defaultSearchFields = [['n','a','m','e'], ['e','m','a','i','l'], ['t','i','t','l','e']] := by
  refine ⟨?_, ?_, ?_, by decide, by decide⟩
  · intro h
    simp [ApiFeatures.search, h, truthyOpt]
  · intro h
    simp [ApiFeatures.search, h, truthyOpt, truthy]
  · intro s h hs
    refine ⟨?_, ?_, ?_, ?_, ?_, ?_⟩ <;>
      simp [ApiFeatures.search, h, truthyOpt, truthy, strValOf, hs]

/-- Witness for C6 at search="bob" with the default field list. -/
theorem search_structure_witness :
    (ApiFeatures.search (ApiFeatures.init emptyHandle qsSearchBob) defaultSearchFields).query.finds =
      [] ++ [searchPredicate ['b','o','b'] defaultSearchFields] := by
  have h := search_structure (ApiFeatures.init emptyHandle qsSearchBob) defaultSearchFields
  exact (h.2.2.1 ['b','o','b'] (by decide) (by decide)).1

/-- C3 (amended): filter issues the count query, against the same
filter predicate it just built (the reserved keys, pagination
included, having been removed), and records the result in total
exactly when the mapping's page entry is present with a truthy value;
a page value that is the empty string is falsy, so total then retains
its prior value, which the constructor initialises to null. -/
theorem filter_count_iff_truthy_page (af : ApiFeatures) (countFn : Json → Nat)
    (af' : ApiFeatures) (hf : ApiFeatures.filter af countFn = some af') :
    (truthyOpt (getF af.queryString pageKey) = true →
      af'.total = Option.map countFn (apiFilters af.queryString)) ∧
    (truthyOpt (getF af.queryString pageKey) = false → af'.total = af.total) ∧
    (∀ q qs, (ApiFeatures.init q qs).total = none) := by
  unfold ApiFeatures.filter at hf
  cases happ : apiFilters af.queryString with
  | none =>
    rw [happ] at hf
    simp at hf
  | some fl =>
    rw [happ] at hf
    simp only [Option.some.injEq] at hf
    subst hf
    refine ⟨?_, ?_, fun q qs => rfl⟩
    · intro ht
      simp [ht, happ]
    · intro ht
      simp [ht]

/-- Witness for C3 at page=2 with a price[gte]=5 filter and the
constant-five count oracle: the count lands in total. -/
theorem filter_count_iff_truthy_page_witness :
    truthyOpt (getF qsPrice pageKey) = true ∧
    Option.map ApiFeatures.total (ApiFeatures.filter (ApiFeatures.init emptyHandle qsPrice) cf5) =
      some (Option.map cf5 (apiFilters qsPrice)) := by
  refine ⟨by decide, ?_⟩
  cases hfe : ApiFeatures.filter (ApiFeatures.init emptyHandle qsPrice) cf5 with
  | none => exact absurd hfe (by decide)
  | some af' =>
    have h := (filter_count_iff_truthy_page (ApiFeatures.init emptyHandle qsPrice) cf5 af' hfe).1
      (by decide)
    simp [h, ApiFeatures.init]

/-- Counterexample to C3 as stated: a mapping containing a page entry
whose value is the empty string.  The claim predicts a count query and
a recorded total; the code's truthiness test skips the count and total
stays null. -/
theorem filter_count_counterexample :
    Option.map ApiFeatures.total
        (ApiFeatures.filter (ApiFeatures.init emptyHandle qsPageEmpty) cf5) = some none ∧
    (some (none : Option Nat) : Option (Option Nat)) ≠ some (some (cf5 (Json.obj JFields.nil))) :=
  ⟨by decide, by decide⟩

/-- C7: the filter predicate built by filter never contains any of the
six reserved keys page, sort, limit, fields, search, populate — they
are deleted before serialization, and the operator rewriting cannot
turn any other key into a reserved key because it only inserts dollar
signs. -/
theorem filter_excludes_reserved (qs : JFields) (h : plainFields qs = true) :
    ∀ j, apiFilters qs = some j → ∀ k, k ∈ jsonKeys j → k ∉ reservedKeys := by
  intro j hj k hk
  rw [apiFilters_structural qs h] at hj
  simp only [Option.some.injEq] at hj
  subst hj
  rw [jsonKeys_dateTransform] at hk
  have hk2 : k ∈ (keysF (removeReserved qs)).map replaceRuns := by
    have : jsonKeys (mapStrsJson replaceRuns (Json.obj (removeReserved qs))) =
        keysF (mapStrsFields replaceRuns (removeReserved qs)) := rfl
    rw [this, keysF_mapStrs] at hk
    exact hk
  obtain ⟨k0, hk0, heq⟩ := List.mem_map.mp hk2
  intro habs
  have hnd : ('$' : Char) ∉ k := by
    simp only [reservedKeys, pageKey, sortKey, limitKey, fieldsKey, searchKey, populateKey,
      List.mem_cons, List.not_mem_nil, or_false] at habs
    rcases habs with h1 | h1 | h1 | h1 | h1 | h1 <;> subst h1 <;> decide
  have hfix := replaceRuns_fix_of_noDollar k0 k hnd heq
  subst hfix
  exact keysF_removeReserved_not_reserved qs k0 hk0 habs

/-- Witness for C7 at page=2, price[gte]=5: the built predicate's keys
avoid every reserved key. -/
theorem filter_excludes_reserved_witness :
    plainFields qsPrice = true ∧
    (Option.map jsonKeys (apiFilters qsPrice) = some [['p','r','i','c','e']] ∧
      (['p','r','i','c','e'] : List Char) ∉ reservedKeys) ∧
    Option.map (fun j => decide (∀ k ∈ jsonKeys j, k ∉ reservedKeys)) (apiFilters qsPrice) =
      some true := by
  refine ⟨by decide, ⟨by decide, by decide⟩, ?_⟩
  cases hfe : apiFilters qsPrice with
  | none => exact absurd hfe (by decide)
  | some j =>
    have h := filter_excludes_reserved qsPrice (by decide) j hfe
    simp only [Option.map_some']
    congr 1
    simpa using h

/-- Counterexample to C2 as stated: the rewriting is not limited to
bracketed operator-suffix keys.  For the mapping status="in" there is
no bracketed suffix, so the claim predicts the predicate status="in"
unchanged; the word-boundary replacement also fires inside the
serialized value and produces status="$in". -/
theorem filter_rewrite_counterexample :
    apiFilters qsStatusIn =
      some (Json.obj (JFields.cons ['s','t','a','t','u','s'] (Json.str ['$','i','n']) JFields.nil)) ∧
    apiFilters qsStatusIn ≠
      some (Json.obj (JFields.cons ['s','t','a','t','u','s'] (Json.str ['i','n']) JFields.nil)) :=
  ⟨by decide, by decide⟩

/-- C2 (amended): filter serializes the non-reserved pairs and
rewrites every word-boundary occurrence of a vocabulary token in the
serialization — bracketed operator-suffix keys in particular, but
equally tokens inside keys and string values — into the dollar-prefixed
native operator; purely word-character tokens outside the vocabulary
are left unchanged; and the handle gains the resulting predicate as
one more conjunctive constraint. -/
theorem filter_rewrite_wordwise (qs : JFields) (countFn : Json → Nat)
    (h : plainFields qs = true) (hd : getF qs dateKey = none) :
    (∀ af af', af.queryString = qs → ApiFeatures.filter af countFn = some af' →
      af'.query.finds = af.query.finds ++ [mapStrsJson replaceRuns (Json.obj (removeReserved qs))]) ∧
    (∀ tok, tok ∈ opVocab → replaceRuns tok = '$' :: tok) ∧
    (∀ w, w.all isWordChar = true → w ∉ opVocab → replaceRuns w = w) := by
  refine ⟨?_, ?_, ?_⟩
  · intro af af' hqs hf
    unfold ApiFeatures.filter at hf
    rw [hqs, apiFilters_structural qs h, dateTransform_mapped_no_date qs hd] at hf
    simp only [Option.some.injEq] at hf
    subst hf
    rfl
  · intro tok htok
    simp only [opVocab, List.mem_cons, List.not_mem_nil, or_false] at htok
    rcases htok with h1 | h1 | h1 | h1 | h1 | h1 | h1 | h1 | h1 | h1 <;> subst h1 <;> decide
  · intro w hw hnv
    rw [replaceRuns_allWord w hw]
    by_cases hz : w = []
    · subst hz
      decide
    · simp [flushRun, hz, hnv]

/-- Witness for C2 at color=red: the pair survives unrewritten into the
handle's one new find predicate, while gte itself would be rewritten. -/
theorem filter_rewrite_wordwise_witness :
    replaceRuns ['g','t','e'] = '$' :: ['g','t','e'] ∧
    replaceRuns ['c','o','l','o','r'] = ['c','o','l','o','r'] ∧
    Option.map (fun a => a.query.finds)
        (ApiFeatures.filter (ApiFeatures.init emptyHandle qsColor) cf0) =
      some ([] ++ [mapStrsJson replaceRuns (Json.obj (removeReserved qsColor))]) := by
  have h := filter_rewrite_wordwise qsColor cf0 (by decide) (by decide)
  refine ⟨h.2.1 ['g','t','e'] (by decide),
    h.2.2 ['c','o','l','o','r'] (by decide) (by decide), ?_⟩
  cases hfe : ApiFeatures.filter (ApiFeatures.init emptyHandle qsColor) cf0 with
  | none => exact absurd hfe (by decide)
  | some af' =>
    have h2 := h.1 (ApiFeatures.init emptyHandle qsColor) af' rfl hfe
    simp [h2, ApiFeatures.init, emptyHandle]

/-- C10: the operator rewriting applies to every word-boundary
occurrence of a vocabulary token anywhere in the serialization of the
non-reserved parameters — the whole predicate is the structural image
of the word-boundary rewrite over keys and string values alike — so a
filter value that is itself an operator word, and likewise a bare field
name equal to one, are also rewritten. -/
theorem filter_rewrites_everywhere (qs : JFields) (h : plainFields qs = true)
    (hd : getF qs dateKey = none) :
    apiFilters qs = some (mapStrsJson replaceRuns (Json.obj (removeReserved qs))) ∧
    apiFilters qsStatusIn =
      some (Json.obj (JFields.cons ['s','t','a','t','u','s'] (Json.str ['$','i','n']) JFields.nil)) ∧
    apiFilters qsKeyIn =
      some (Json.obj (JFields.cons ['$','i','n'] (Json.str ['5']) JFields.nil)) := by
  refine ⟨?_, by decide, by decide⟩
  rw [apiFilters_structural qs h, dateTransform_mapped_no_date qs hd]

/-- Witness for C10 at color=red. -/
theorem filter_rewrites_everywhere_witness :
    plainFields qsColor = true ∧ getF qsColor dateKey = none ∧
    apiFilters qsColor = some (mapStrsJson replaceRuns (Json.obj (removeReserved qsColor))) := by
  have h := filter_rewrites_everywhere qsColor (by decide) (by decide)
  exact ⟨by decide, by decide, h.1⟩
